import Mathlib

set_option maxRecDepth 400000

/-!
# Verification of the nifti-stream core against its specification

Shallow embedding of the TypeScript sources of `nifti-stream`:

* `src/nifti.ts`        — standalone magic-token version detector
* `src/niftiHeader.ts`  — fixed-layout header codec (parse / serialize / affine)
* `src/nifti-extension.ts` — extension construction invariant
* `src/stream.ts`       — gzip-sniffing decompression adapter
* `src/index.ts`        — buffering engine and slice-chunking session

Byte buffers are `List ℕ` (each entry one byte, `< 256` where well-formedness
matters).  An incoming byte stream is a `List (List ℕ)`: the list of chunks the
underlying reader will deliver, in order; reading pops the head and the stream
is done when the list is empty.  Machine integers parsed out of buffers are `ℤ`
with the explicit two's-complement conversion the `DataView` getters perform.
Float-typed header fields are represented by their stored bit patterns (a `ℕ`
of the field's width assembled in the file's byte order): the codec only moves
these fields between the buffer and the header object, so the byte-level
claims about it are exactly claims about the patterns.
-/

/-- Decidable equality for `Except` results, used to evaluate the embedded
operations on concrete inputs. -/
instance {e a : Type} [DecidableEq e] [DecidableEq a] : DecidableEq (Except e a) := fun x y =>
  match x, y with
  | .ok u, .ok v => decidable_of_iff (u = v) (by simp)
  | .error u, .error v => decidable_of_iff (u = v) (by simp)
  | .ok _, .error _ => isFalse (by simp)
  | .error _, .ok _ => isFalse (by simp)

/-- `seg b off n` is the `n`-byte slice of `b` starting at byte offset `off` —
the byte range a `DataView` accessor of width `n` at offset `off` covers. -/
def seg (b : List ℕ) (off n : ℕ) : List ℕ :=
  (b.drop off).take n

/-- Big-endian value of a byte list (most significant byte first). -/
def beNat (l : List ℕ) : ℕ :=
  l.foldl (fun a x => 256 * a + x) 0

/-- Reads an unsigned integer from a byte list in the indicated byte order
(`le = true` for little-endian), as `DataView.getUintN` does. -/
def readUInt (le : Bool) (l : List ℕ) : ℕ :=
  if le then beNat l.reverse else beNat l

/-- Two's-complement reinterpretation of a `w`-bit unsigned value, as the
signed `DataView` getters (`getInt16`, `getInt32`, `getBigInt64`) perform. -/
def toSigned (w : ℕ) (v : ℕ) : ℤ :=
  if v < 2 ^ (w - 1) then (v : ℤ) else (v : ℤ) - 2 ^ w

/-- `DataView.getInt8` at byte offset `off` (single byte, endianness-free). -/
def readI8 (b : List ℕ) (off : ℕ) : ℤ :=
  toSigned 8 (readUInt false (seg b off 1))

/-- `DataView.getUint8` at byte offset `off`. -/
def readU8 (b : List ℕ) (off : ℕ) : ℕ :=
  readUInt false (seg b off 1)

/-- `DataView.getInt16` at byte offset `off`. -/
def readI16 (le : Bool) (b : List ℕ) (off : ℕ) : ℤ :=
  toSigned 16 (readUInt le (seg b off 2))

/-- `DataView.getInt32` at byte offset `off`. -/
def readI32 (le : Bool) (b : List ℕ) (off : ℕ) : ℤ :=
  toSigned 32 (readUInt le (seg b off 4))

/-- `DataView.getBigInt64` at byte offset `off`. -/
def readI64 (le : Bool) (b : List ℕ) (off : ℕ) : ℤ :=
  toSigned 64 (readUInt le (seg b off 8))

/-- The bit pattern `DataView.getFloat32` reads at byte offset `off`: the
 4 bytes assembled in the file's byte order.  The codec never computes with
 the float value, it only stores and re-serializes it, so the pattern is the
 faithful representation for the byte-level claims. -/
def readF32 (le : Bool) (b : List ℕ) (off : ℕ) : ℕ :=
  readUInt le (seg b off 4)

/-- The bit pattern `DataView.getFloat64` reads at byte offset `off`. -/
def readF64 (le : Bool) (b : List ℕ) (off : ℕ) : ℕ :=
  readUInt le (seg b off 8)

/-- Big-endian byte list (length `n`) of `v % 256^n`. -/
def natBytesBE : ℕ → ℕ → List ℕ
  | 0, _ => []
  | n + 1, v => natBytesBE n (v / 256) ++ [v % 256]

/-- Writes an `n`-byte unsigned integer in the indicated byte order, as the
`DataView` setters do after their ToIntegerOrInfinity/modulo conversion. -/
def writeUInt (le : Bool) (n : ℕ) (v : ℕ) : List ℕ :=
  if le then (natBytesBE n v).reverse else natBytesBE n v

/-- Writes a signed integer as its `n`-byte two's-complement pattern — the
conversion `setInt16`/`setUint16`/`setInt32`/`setBigInt64` apply (the signed
and unsigned setters of one width produce identical bytes). -/
def writeInt (le : Bool) (n : ℕ) (v : ℤ) : List ℕ :=
  writeUInt le n (v.emod (2 ^ (8 * n))).toNat

/-! ## Error taxonomy (`src/error.ts` and throw sites)

Every throw site in the sources except the `NiftiExtension` constructor throws
a `NiftiIOError`; the constructor throws a plain `Error`.  `readNextSlice`
distinguishes the two with `instanceof NiftiIOError`. -/

inductive NError where
  /-- `Unexpected end of stream: needed {needed} bytes but got {got}` -/
  | streamEnd (needed got : ℕ) : NError
  /-- `Reader not initialized` -/
  | readerNotInit : NError
  /-- `Not a valid NIFTI file` -/
  | notNifti : NError
  /-- `Not enough bytes to identify NIFTI header.` -/
  | peekTooShort : NError
  /-- `Not enough bytes to parse NIFTI-{v} header.` -/
  | sizeError (version : ℕ) : NError
  /-- `Cannot read extension before header` / `Cannot read slice before header` -/
  | beforeHeader : NError
  /-- `Invalid NIFTI extension: size must be divisible by 16` (a plain `Error`,
  not a `NiftiIOError`) -/
  | constructionError : NError
  deriving DecidableEq, Repr

/-- Whether the error is a `NiftiIOError` (`instanceof NiftiIOError`): all
errors of the module are, except the extension constructor's plain `Error`. -/
def NError.isIOError : NError → Bool
  | .constructionError => false
  | _ => true

/-! ## Version detection on the magic-token locations (`src/nifti.ts`) -/

inductive NVersion where
  | nifti1 | nifti1Pair | nifti2 | nifti2Pair | noneV
  deriving DecidableEq, Repr

/-- `detectNiftiVersion` from `src/nifti.ts`: requires at least 348 bytes,
then tests the NIfTI-1 magic location (offset 344) for `ni1` / `n+1` before
the NIfTI-2 magic location (offset 4) for `ni2` / `n+2`. -/
def detectNiftiVersion (b : List ℕ) : NVersion :=
  if b.length < 348 then .noneV
  else
    let n1mag1 := b.getD 344 0
    let n1mag2 := b.getD 345 0
    let n1mag3 := b.getD 346 0
    if n1mag1 = 110 ∧ n1mag2 = 105 ∧ n1mag3 = 49 then .nifti1
    else if n1mag1 = 110 ∧ n1mag2 = 43 ∧ n1mag3 = 49 then .nifti1Pair
    else
      let n2mag1 := b.getD 4 0
      let n2mag2 := b.getD 5 0
      let n2mag3 := b.getD 6 0
      if n2mag1 = 110 ∧ n2mag2 = 105 ∧ n2mag3 = 50 then .nifti2
      else if n2mag1 = 110 ∧ n2mag2 = 43 ∧ n2mag3 = 50 then .nifti2Pair
      else .noneV

/-! ## The buffering engine (`NiftiStream.readBytes`, `src/index.ts` 109–154)

State carried across a call: the accumulation `buffer`, the read cursor
`bufferOffset`, and the chunks the upstream reader has yet to deliver.  The
source recursion consumes one upstream chunk per recursive call, so it is
well-founded on the chunk list. -/

/-- Total byte length of the chunks a stream will still deliver. -/
def chunksTotal (chunks : List (List ℕ)) : ℕ :=
  (chunks.map List.length).sum

/-- `NiftiStream.readBytes(length)`.  Returns the bytes read together with the
updated buffer, cursor and remaining upstream chunks.  Mirrors the source:
if the buffer holds enough unread bytes, slice them and advance the cursor;
otherwise pull one chunk, concatenate it with the unread remainder and retry;
end-of-input with too few bytes throws the stream-end `NiftiIOError` naming
the requested and available counts. -/
def readBytesGo (len : ℕ) (buf : List ℕ) (off : ℕ) (chunks : List (List ℕ)) :
    Except NError (List ℕ × List ℕ × ℕ × List (List ℕ)) :=
  if buf.length - off ≥ len then
    .ok (seg buf off len, buf, off + len, chunks)
  else if buf.length - off > 0 then
    let remaining := buf.drop off
    match chunks with
    | [] =>
      if remaining.length < len then .error (.streamEnd len remaining.length)
      else .ok (remaining, buf, off, [])
    | v :: rest => readBytesGo len (remaining ++ v) 0 rest
  else
    match chunks with
    | [] => .error (.streamEnd len 0)
    | v :: rest => readBytesGo len v 0 rest
termination_by structural chunks

/-! ## The header codec (`src/niftiHeader.ts`)

One header class serves both versions in the source; its float-typed fields
hold whatever the version-specific parse assigned.  Here float fields hold the
stored bit pattern (`ℕ`, width fixed by the version that parsed them) and
string fields hold the byte string truncated at the first NUL, exactly what
`getStringAt` produces for ASCII content (`TextDecoder('ascii')` /
`TextEncoder` agree byte-for-byte on values below 128).  `voxOffset` holds the
float32 pattern after a NIfTI-1 parse and the int64 value after a NIfTI-2
parse, mirroring the single `number` field of the source.  Every parse
assigns every field, so the class initializer values never reach a
serialization in the verified claims. -/

structure NiftiHeaderM where
  dimInfo : ℤ := 0
  dims : List ℤ := [0, 0, 0, 0, 0, 0, 0, 0]
  intentP1 : ℕ := 0
  intentP2 : ℕ := 0
  intentP3 : ℕ := 0
  intentCode : ℤ := 0
  datatypeCode : ℤ := 0
  numBitsPerVoxel : ℤ := 0
  sliceStart : ℤ := 0
  pixDims : List ℕ := [0, 0, 0, 0, 0, 0, 0, 0]
  voxOffset : ℤ := 0
  dataSlope : ℕ := 0
  dataIntercept : ℕ := 0
  sliceEnd : ℤ := 0
  sliceCode : ℤ := 0
  xyztUnits : ℤ := 0
  calibrationMax : ℕ := 0
  calibrationMin : ℕ := 0
  sliceDuration : ℕ := 0
  timeOffset : ℕ := 0
  description : List ℕ := []
  auxilaryFile : List ℕ := []
  qFormCode : ℤ := 0
  sFormCode : ℤ := 0
  sRowX : List ℕ := [0, 0, 0, 0]
  sRowY : List ℕ := [0, 0, 0, 0]
  sRowZ : List ℕ := [0, 0, 0, 0]
  quaternB : ℕ := 0
  quaternC : ℕ := 0
  quaternD : ℕ := 0
  qOffsetX : ℕ := 0
  qOffsetY : ℕ := 0
  qOffsetZ : ℕ := 0
  intentName : List ℕ := []
  magic : List ℕ := [110, 105, 49]
  littleEndian : Bool := false
  deriving DecidableEq, Repr

/-- `getStringAt(view, start, end)` from `src/utils.ts`: the byte range
`[start, end)` truncated at the first zero byte. -/
def getStringAtM (b : List ℕ) (start stop : ℕ) : List ℕ :=
  (seg b start (stop - start)).takeWhile (· ≠ 0)

/-- `NiftiHeader.peekVersion`: reads the 4-byte big-endian integer at offset 0
and classifies it into (isNifti1, isLittleEndian); throws when fewer than 4
bytes are supplied, returns `none` for an unrecognized value. -/
def peekVersionM (b : List ℕ) : Except NError (Option (Bool × Bool)) :=
  if b.length < 4 then .error .peekTooShort
  else
    let v := readI32 false b 0
    if v = 348 then .ok (some (true, false))
    else if v = 1543569408 then .ok (some (true, true))
    else if v = 540 then .ok (some (false, false))
    else if v = 469893120 then .ok (some (false, true))
    else .ok none

/-- Field extraction of `NiftiHeader.parseNifti1` (the body after the length
check), at the fixed NIfTI-1 offsets, with the caller-supplied endianness (the
streaming path always passes the peeked endianness). -/
def parseNifti1Fields (b : List ℕ) (le : Bool) : NiftiHeaderM where
  littleEndian := le
  dimInfo := readI8 b 39
  dims := (List.range 8).map fun ctr => readI16 le b (40 + ctr * 2)
  intentP1 := readF32 le b 56
  intentP2 := readF32 le b 60
  intentP3 := readF32 le b 64
  intentCode := readI16 le b 68
  datatypeCode := readI16 le b 70
  numBitsPerVoxel := readI16 le b 72
  sliceStart := readI16 le b 74
  pixDims := (List.range 8).map fun ctr => readF32 le b (76 + ctr * 4)
  voxOffset := (readF32 le b 108 : ℤ)
  dataSlope := readF32 le b 112
  dataIntercept := readF32 le b 116
  sliceEnd := readI16 le b 120
  sliceCode := readI8 b 122
  xyztUnits := readI8 b 123
  calibrationMax := readF32 le b 124
  calibrationMin := readF32 le b 128
  sliceDuration := readF32 le b 132
  timeOffset := readF32 le b 136
  description := getStringAtM b 148 228
  auxilaryFile := getStringAtM b 228 252
  qFormCode := readI16 le b 252
  sFormCode := readI16 le b 254
  quaternB := readF32 le b 256
  quaternC := readF32 le b 260
  quaternD := readF32 le b 264
  qOffsetX := readF32 le b 268
  qOffsetY := readF32 le b 272
  qOffsetZ := readF32 le b 276
  sRowX := (List.range 4).map fun ctrIn => readF32 le b (280 + (0 * 4 + ctrIn) * 4)
  sRowY := (List.range 4).map fun ctrIn => readF32 le b (280 + (1 * 4 + ctrIn) * 4)
  sRowZ := (List.range 4).map fun ctrIn => readF32 le b (280 + (2 * 4 + ctrIn) * 4)
  intentName := getStringAtM b 328 344
  magic := getStringAtM b 344 348

/-- `NiftiHeader.parseNifti1` with explicit endianness: fails with the size
error when fewer than 348 bytes are supplied. -/
def parseNifti1 (b : List ℕ) (le : Bool) : Except NError NiftiHeaderM :=
  if b.length < 348 then .error (.sizeError 1) else .ok (parseNifti1Fields b le)

/-- Field extraction of `NiftiHeader.parseNifti2`.  Note the source reads the
three sform rows with `getFloat64` at `280 + (ctrOut*4 + ctrIn)*4` — the
NIfTI-1 offset table with a 4-byte stride on 8-byte reads — which is
transcribed verbatim here. -/
def parseNifti2Fields (b : List ℕ) (le : Bool) : NiftiHeaderM where
  littleEndian := le
  magic := getStringAtM b 4 12
  datatypeCode := readI16 le b 12
  numBitsPerVoxel := readI16 le b 14
  dims := (List.range 8).map fun ctr => readI64 le b (16 + ctr * 8)
  intentP1 := readF64 le b 80
  intentP2 := readF64 le b 88
  intentP3 := readF64 le b 96
  pixDims := (List.range 8).map fun ctr => readF64 le b (104 + ctr * 8)
  voxOffset := readI64 le b 168
  dataSlope := readF64 le b 176
  dataIntercept := readF64 le b 184
  calibrationMax := readF64 le b 192
  calibrationMin := readF64 le b 200
  sliceDuration := readF64 le b 208
  timeOffset := readF64 le b 216
  sliceStart := readI64 le b 224
  sliceEnd := readI64 le b 232
  description := getStringAtM b 240 (240 + 80)
  auxilaryFile := getStringAtM b 320 (320 + 24)
  qFormCode := readI32 le b 344
  sFormCode := readI32 le b 348
  quaternB := readF64 le b 352
  quaternC := readF64 le b 360
  quaternD := readF64 le b 368
  qOffsetX := readF64 le b 376
  qOffsetY := readF64 le b 384
  qOffsetZ := readF64 le b 392
  sRowX := (List.range 4).map fun ctrIn => readF64 le b (280 + (0 * 4 + ctrIn) * 4)
  sRowY := (List.range 4).map fun ctrIn => readF64 le b (280 + (1 * 4 + ctrIn) * 4)
  sRowZ := (List.range 4).map fun ctrIn => readF64 le b (280 + (2 * 4 + ctrIn) * 4)
  sliceCode := readI32 le b 496
  xyztUnits := readI32 le b 500
  intentCode := readI32 le b 504
  intentName := getStringAtM b 508 (508 + 16)
  dimInfo := readI8 b 524

/-- `NiftiHeader.parseNifti2` with explicit endianness. -/
def parseNifti2 (b : List ℕ) (le : Bool) : Except NError NiftiHeaderM :=
  if b.length < 540 then .error (.sizeError 2) else .ok (parseNifti2Fields b le)

/-- Writing one string field: `byteArray.set(encoder.encode(s.slice(0, w)), off)`
into a zero-filled array leaves the remainder of the `w`-byte field zero. -/
def strChunk (w : ℕ) (s : List ℕ) : List ℕ :=
  s.take w ++ List.replicate (w - (s.take w).length) 0

/-- One byte written by `setUint8` (value modulo 256). -/
def writeU8 (v : ℤ) : List ℕ :=
  writeInt false 1 v

/-- Float32 pattern written back by `setFloat32`. -/
def writeF32 (le : Bool) (p : ℕ) : List ℕ :=
  writeUInt le 4 p

/-- Float64 pattern written back by `setFloat64`. -/
def writeF64 (le : Bool) (p : ℕ) : List ℕ :=
  writeUInt le 8 p

/-- `NiftiHeader.serializeNifti1`: a fresh zeroed 348-byte array written at
the fixed offsets; rendered as the concatenation of the written fields in
offset order with the untouched gaps as zero runs.  Offsets are annotated. -/
def serializeNifti1 (h : NiftiHeaderM) : List ℕ :=
  let le := h.littleEndian
  let magic1 :=
    if h.magic = [110, 105, 50] then [110, 105, 49]
    else if h.magic = [110, 43, 50] then [110, 43, 49]
    else h.magic
  writeInt le 4 348                                                -- 0: sizeof_hdr
  ++ List.replicate 35 0                                           -- 4..38: unused
  ++ writeU8 h.dimInfo                                             -- 39: dim_info
  ++ ((List.range 8).map fun i => writeInt le 2 (h.dims.getD i 0)).flatten  -- 40: dims
  ++ writeF32 le h.intentP1                                        -- 56
  ++ writeF32 le h.intentP2                                        -- 60
  ++ writeF32 le h.intentP3                                        -- 64
  ++ writeInt le 2 h.intentCode                                    -- 68
  ++ writeInt le 2 h.datatypeCode                                  -- 70
  ++ writeInt le 2 h.numBitsPerVoxel                               -- 72
  ++ writeInt le 2 h.sliceStart                                    -- 74
  ++ ((List.range 8).map fun i => writeF32 le (h.pixDims.getD i 0)).flatten -- 76: pixdim
  ++ writeF32 le h.voxOffset.toNat                                 -- 108: vox_offset
  ++ writeF32 le h.dataSlope                                       -- 112
  ++ writeF32 le h.dataIntercept                                   -- 116
  ++ writeInt le 2 h.sliceEnd                                      -- 120
  ++ writeU8 h.sliceCode                                           -- 122
  ++ writeU8 h.xyztUnits                                           -- 123
  ++ writeF32 le h.calibrationMax                                  -- 124
  ++ writeF32 le h.calibrationMin                                  -- 128
  ++ writeF32 le h.sliceDuration                                   -- 132
  ++ writeF32 le h.timeOffset                                      -- 136
  ++ List.replicate 8 0                                            -- 140..147: glmax/glmin
  ++ strChunk 80 h.description                                     -- 148: descrip
  ++ strChunk 24 h.auxilaryFile                                    -- 228: aux_file
  ++ writeInt le 2 h.qFormCode                                     -- 252
  ++ writeInt le 2 h.sFormCode                                     -- 254
  ++ writeF32 le h.quaternB                                        -- 256
  ++ writeF32 le h.quaternC                                        -- 260
  ++ writeF32 le h.quaternD                                        -- 264
  ++ writeF32 le h.qOffsetX                                        -- 268
  ++ writeF32 le h.qOffsetY                                        -- 272
  ++ writeF32 le h.qOffsetZ                                        -- 276
  ++ ((List.range 4).map fun i => writeF32 le (h.sRowX.getD i 0)).flatten   -- 280
  ++ ((List.range 4).map fun i => writeF32 le (h.sRowY.getD i 0)).flatten   -- 296
  ++ ((List.range 4).map fun i => writeF32 le (h.sRowZ.getD i 0)).flatten   -- 312
  ++ strChunk 16 h.intentName                                      -- 328: intent_name
  ++ (magic1.take 3 ++ List.replicate (4 - (magic1.take 3).length) 0)    -- 344: magic

/-- `NiftiHeader.serializeNifti2`: the 540-byte layout, written at the
NIfTI-2 offsets (the sform rows go to `400 + (row*4 + col)*8`). -/
def serializeNifti2 (h : NiftiHeaderM) : List ℕ :=
  let le := h.littleEndian
  let magic2 :=
    if h.magic = [110, 105, 49] then [110, 105, 50]
    else if h.magic = [110, 43, 49] then [110, 43, 50]
    else h.magic
  writeInt le 4 540                                                -- 0: sizeof_hdr
  ++ (magic2.take 3 ++ List.replicate (8 - (magic2.take 3).length) 0)    -- 4: magic
  ++ writeInt le 2 h.datatypeCode                                  -- 12
  ++ writeInt le 2 h.numBitsPerVoxel                               -- 14
  ++ ((List.range 8).map fun i => writeInt le 8 (h.dims.getD i 0)).flatten  -- 16: dim
  ++ writeF64 le h.intentP1                                        -- 80
  ++ writeF64 le h.intentP2                                        -- 88
  ++ writeF64 le h.intentP3                                        -- 96
  ++ ((List.range 8).map fun i => writeF64 le (h.pixDims.getD i 0)).flatten -- 104: pixdim
  ++ writeInt le 8 h.voxOffset                                     -- 168: vox_offset
  ++ writeF64 le h.dataSlope                                       -- 176
  ++ writeF64 le h.dataIntercept                                   -- 184
  ++ writeF64 le h.calibrationMax                                  -- 192
  ++ writeF64 le h.calibrationMin                                  -- 200
  ++ writeF64 le h.sliceDuration                                   -- 208
  ++ writeF64 le h.timeOffset                                      -- 216
  ++ writeInt le 8 h.sliceStart                                    -- 224
  ++ writeInt le 8 h.sliceEnd                                      -- 232
  ++ strChunk 80 h.description                                     -- 240: descrip
  ++ strChunk 24 h.auxilaryFile                                    -- 320: aux_file
  ++ writeInt le 4 h.qFormCode                                     -- 344
  ++ writeInt le 4 h.sFormCode                                     -- 348
  ++ writeF64 le h.quaternB                                        -- 352
  ++ writeF64 le h.quaternC                                        -- 360
  ++ writeF64 le h.quaternD                                        -- 368
  ++ writeF64 le h.qOffsetX                                        -- 376
  ++ writeF64 le h.qOffsetY                                        -- 384
  ++ writeF64 le h.qOffsetZ                                        -- 392
  ++ ((List.range 4).map fun i => writeF64 le (h.sRowX.getD i 0)).flatten   -- 400
  ++ ((List.range 4).map fun i => writeF64 le (h.sRowY.getD i 0)).flatten   -- 432
  ++ ((List.range 4).map fun i => writeF64 le (h.sRowZ.getD i 0)).flatten   -- 464
  ++ writeInt le 4 h.sliceCode                                     -- 496
  ++ writeInt le 4 h.xyztUnits                                     -- 500
  ++ writeInt le 4 h.intentCode                                    -- 504
  ++ strChunk 16 h.intentName                                      -- 508: intent_name
  ++ writeU8 h.dimInfo                                             -- 524: dim_info
  ++ List.replicate 15 0                                           -- 525..539: untouched

/-! ## Extensions (`src/nifti-extension.ts`) -/

structure NiftiExtensionM where
  esize : ℤ
  ecode : ℤ
  edata : List ℕ
  littleEndian : Bool
  deriving DecidableEq, Repr

/-- The `NiftiExtension` constructor: throws a plain `Error` when `esize` is
not divisible by 16 (JS `%` is the truncating remainder, `Int.tmod`); no other
validation is performed. -/
def mkNiftiExtension (esize ecode : ℤ) (edata : List ℕ) (le : Bool) :
    Except NError NiftiExtensionM :=
  if esize.tmod 16 ≠ 0 then .error .constructionError
  else .ok { esize := esize, ecode := ecode, edata := edata, littleEndian := le }

/-! ## The decompression adapter (`uncompressStream`, `src/stream.ts`)

The adapter performs exactly one read on the raw stream and then returns one
of three stream shapes.  The gzip transform itself is external
(`DecompressionStream`), so the gzip-routed shape records the chunks fed into
the transform rather than its output. -/

inductive UOut where
  /-- First read was already `done`: an immediately-closed empty stream. -/
  | closedEmpty : UOut
  /-- First chunk shorter than 2 bytes: a stream replaying only that chunk. -/
  | single (chunk : List ℕ) : UOut
  /-- A stream re-emitting the first chunk then the remaining chunks,
  optionally piped through the gzip transform. -/
  | pipe (first : List ℕ) (rest : List (List ℕ)) (isGzip : Bool) : UOut
  deriving DecidableEq, Repr

/-- `uncompressStream`: pops the first chunk, sniffs the two-byte gzip
signature `0x1F 0x8B`, and wires up the downstream stream accordingly. -/
def uncompressStreamM (chunks : List (List ℕ)) : UOut :=
  match chunks with
  | [] => .closedEmpty
  | value :: rest =>
    if value.length < 2 then .single value
    else .pipe value rest (decide (value.getD 0 0 = 31 ∧ value.getD 1 0 = 139))

/-- The chunk sequence the adapter delivers downstream, with the external
gzip transform supplied as a black-box chunk-stream function. -/
def uoutDeliver (gunzip : List (List ℕ) → List (List ℕ)) : UOut → List (List ℕ)
  | .closedEmpty => []
  | .single c => [c]
  | .pipe f r gz => if gz then gunzip (f :: r) else f :: r

/-- Concatenated bytes of the non-gzip output shapes (`none` when the output
is routed through the external gzip transform). -/
def uoutPlainBytes : UOut → Option (List ℕ)
  | .closedEmpty => some []
  | .single c => some c
  | .pipe f r gz => if gz then none else some ((f :: r).flatten)

/-! ## The slice-chunking session (`NiftiStream`, `src/index.ts`) -/

/-- The recognized configuration surface.  Handlers are pure functions whose
`Bool` result is the "stop streaming" request (`void` ↦ `false`);
`hasOnError` records whether an error handler is configured. -/
structure SOptions where
  sliceDimension : Option ℕ := none
  onHeader : Option (NiftiHeaderM → Bool) := none
  onExtension : Option (Option NiftiExtensionM → Bool) := none
  onSlice : Option (List ℕ → List (Option ℤ) → NiftiHeaderM → Bool) := none
  hasOnError : Bool := false

/-- Per-session mutable state: accumulation buffer, read cursor, chunks the
upstream reader has yet to deliver, the slice counter `dataPosition`, and the
most recently parsed header. -/
structure SState where
  buffer : List ℕ := []
  bufferOffset : ℕ := 0
  chunks : List (List ℕ)
  dataPosition : ℕ := 0
  header : Option NiftiHeaderM := none
  deriving DecidableEq, Repr

/-- `NiftiStream.readHeader`: reads a NIfTI-1-sized block, peeks the version,
reads the NIfTI-2 remainder when needed, and parses. -/
def readHeaderM (st : SState) : Except NError (NiftiHeaderM × SState) := do
  let (initial, buf1, off1, ch1) ← readBytesGo 348 st.buffer st.bufferOffset st.chunks
  match ← peekVersionM initial with
  | none => .error .notNifti
  | some (nifti1, le) =>
    if nifti1 then do
      let h ← parseNifti1 initial le
      .ok (h, { st with buffer := buf1, bufferOffset := off1, chunks := ch1 })
    else do
      let (remaining, buf2, off2, ch2) ← readBytesGo (540 - 348) buf1 off1 ch1
      let h ← parseNifti2 (initial ++ remaining) le
      .ok (h, { st with buffer := buf2, bufferOffset := off2, chunks := ch2 })

/-- `NiftiStream.readExtension`: 4-byte presence flag, 8-byte extension
header, then the `esize − 8` payload bytes, constructing a `NiftiExtension`.
The payload length is `(esize − 8).toNat`: for `esize < 8` the JS source would
pass a negative length to `readBytes` (returning an empty slice and moving the
cursor backwards); the model clamps to an empty read, and every claim about
this phase constrains `esize ≥ 8`. -/
def readExtensionM (st : SState) : Except NError (Option NiftiExtensionM × SState) :=
  match st.header with
  | none => .error .beforeHeader
  | some h => do
    let (flag, b1, o1, c1) ← readBytesGo 4 st.buffer st.bufferOffset st.chunks
    if flag.getD 0 0 = 0 then
      .ok (none, { st with buffer := b1, bufferOffset := o1, chunks := c1 })
    else do
      let (eh, b2, o2, c2) ← readBytesGo 8 b1 o1 c1
      let le := h.littleEndian
      let esize := readI32 le eh 0
      let ecode := readI32 le eh 4
      let (edata, b3, o3, c3) ← readBytesGo (esize - 8).toNat b2 o2 c2
      let ext ← mkNiftiExtension esize ecode edata le
      .ok (some ext, { st with buffer := b3, bufferOffset := o3, chunks := c3 })

/-- Slice byte count: `bytesPerVoxel × ∏ dims[1..d]` skipping non-positive
dimension sizes.  The source computes `numBitsPerVoxel / 8` in JS float
arithmetic; the natural-number division here agrees with it exactly whenever
8 divides `numBitsPerVoxel`, which every claim about this code assumes. -/
def sliceSizeM (h : NiftiHeaderM) (d : ℕ) : ℕ :=
  (List.range' 1 d).foldl
    (fun acc i => if 0 < h.dims.getD i 0 then acc * (h.dims.getD i 0).toNat else acc)
    (h.numBitsPerVoxel.toNat / 8)

/-- JS array index assignment `l[i] = v`: in-place when `i < l.length`,
otherwise the array is extended with undefined holes (`none`) up to `i`. -/
def jsSetExtend (l : List (Option ℤ)) (i : ℕ) (v : ℤ) : List (Option ℤ) :=
  if i < l.length then l.set i (some v)
  else l ++ List.replicate (i - l.length) none ++ [some v]

/-- One emitted slice (or raw chunk): data bytes plus the position index
array (`[]` for raw chunks). -/
structure SliceResultM where
  data : List ℕ
  indices : List (Option ℤ)
  deriving DecidableEq, Repr

/-- `NiftiStream.readNextSlice`.  Raw path when no slice dimension is
configured; otherwise one `readBytes(sliceSize)`, with the position array
`new Array(dims[0]).fill(0)` mutated at slot `sliceDimension + 1` (the
`toNat` clamps a negative `dims[0]`, where the JS `Array` constructor would
throw; claims constrain `dims[0] ≥ 0`).  A `NiftiIOError` from the read is
swallowed and reported as a clean end (`null`); any other error propagates. -/
def readNextSliceM (opts : SOptions) (st : SState) :
    Except NError (Option (SliceResultM × SState)) :=
  match st.header with
  | none => .error .beforeHeader
  | some h =>
    match opts.sliceDimension with
    | none =>
      if st.dataPosition = 0 ∧ st.bufferOffset < st.buffer.length then
        .ok (some ({ data := st.buffer.drop st.bufferOffset, indices := [] },
          { st with buffer := [], bufferOffset := 0, dataPosition := st.dataPosition + 1 }))
      else
        match st.chunks with
        | [] => .ok none
        | v :: rest =>
          .ok (some ({ data := v, indices := [] },
            { st with chunks := rest, dataPosition := st.dataPosition + 1 }))
    | some d =>
      match readBytesGo (sliceSizeM h d) st.buffer st.bufferOffset st.chunks with
      | .ok (sliceData, b1, o1, c1) =>
        let indices :=
          jsSetExtend (List.replicate (h.dims.getD 0 0).toNat (some 0)) (d + 1)
            (st.dataPosition : ℤ)
        .ok (some ({ data := sliceData, indices := indices },
          { st with buffer := b1, bufferOffset := o1, chunks := c1,
                    dataPosition := st.dataPosition + 1 }))
      | .error e => if e.isIOError then .ok none else .error e

/-- The successive slices `readNextSlice` emits from a state, in emission
order (the streaming loop of `start` with a handler that never requests a
stop), bounded by fuel. -/
def runSlices (opts : SOptions) : ℕ → SState → List SliceResultM
  | 0, _ => []
  | fuel + 1, st =>
    match readNextSliceM opts st with
    | .ok (some (r, st')) => r :: runSlices opts fuel st'
    | _ => []

/-- The `while (!this.stopped)` slice loop of `start`: read a slice, invoke
the handler, stop on a truthy result or on end of stream; errors propagate to
the session's catch.  Fuel exhaustion exits the loop (modelling device for
the unbounded loop). -/
def sliceLoop (opts : SOptions)
    (f : List ℕ → List (Option ℤ) → NiftiHeaderM → Bool) :
    ℕ → SState → Except NError Unit
  | 0, _ => .ok ()
  | fuel + 1, st =>
    match readNextSliceM opts st with
    | .error e => .error e
    | .ok none => .ok ()
    | .ok (some (r, st')) =>
      match st'.header with
      | none => .ok ()
      | some h => if f r.data r.indices h then .ok () else sliceLoop opts f fuel st'

/-- The body of `NiftiStream.start`'s `try` block: header phase (with the
early-stop rules for absent handlers), extension phase, then the slice
loop. -/
def sessionBody (opts : SOptions) (fuel : ℕ) (st0 : SState) : Except NError Unit := do
  let (h, st1raw) ← readHeaderM st0
  let st1 := { st1raw with header := some h }
  let stopAfterHeader :=
    match opts.onHeader with
    | some f => f h
    | none => opts.onExtension.isNone && opts.onSlice.isNone
  if stopAfterHeader then .ok ()
  else do
    let (ext, st2) ← readExtensionM st1
    let stopAfterExtension :=
      match opts.onExtension with
      | some f => f ext
      | none => opts.onSlice.isNone
    if stopAfterExtension then .ok ()
    else
      match opts.onSlice with
      | none => .ok ()
      | some f => sliceLoop opts f fuel st2

/-- `NiftiStream.start`: wires the decompression adapter in front of the
session, runs the session body, and catches every error it raises — invoking
the configured error handler, or silently swallowing the error when none is
configured.  The returned value is the error delivered to `onError` (if any);
the `Except` layer witnesses that `start` itself never throws. -/
def startM (gunzip : List (List ℕ) → List (List ℕ)) (opts : SOptions)
    (chunks : List (List ℕ)) (fuel : ℕ) : Except NError (Option NError) :=
  let delivered := uoutDeliver gunzip (uncompressStreamM chunks)
  match sessionBody opts fuel { chunks := delivered } with
  | .ok _ => .ok none
  | .error e => .ok (if opts.hasOnError then some e else none)

/-! ## The affine derivation (`NiftiHeader.computeAffine`)

`computeAffine` computes with the float *values* of the header fields, so it
gets a numeric view of the header: scalars are JS numbers modelled as
`Option ℚ` with `none` for NaN (exact arithmetic; every arithmetic operation
propagates NaN, exactly as JS floats propagate it).  `Math.sqrt` is the one
operation that leaves ℚ, so it is passed in as an explicit function; the
JS-relevant fact `Math.sqrt x = NaN` for `x < 0` enters the theorems as a
hypothesis on that function at the concrete argument used. -/

abbrev JNum := Option ℚ

/-- JS `+` on numbers: NaN-propagating addition. -/
def jadd : JNum → JNum → JNum
  | some a, some b => some (a + b)
  | _, _ => none

/-- JS `-` on numbers: NaN-propagating subtraction. -/
def jsub : JNum → JNum → JNum
  | some a, some b => some (a - b)
  | _, _ => none

/-- JS `*` on numbers: NaN-propagating multiplication. -/
def jmul : JNum → JNum → JNum
  | some a, some b => some (a * b)
  | _, _ => none

/-- `Math.pow(x, 2)`: the exact square, NaN-propagating. -/
def jpow2 (x : JNum) : JNum :=
  jmul x x

/-- Numeric view of the header fields `computeAffine` reads. -/
structure AffHeader where
  qFormCode : ℤ := 0
  sFormCode : ℤ := 0
  quaternB : JNum := some 0
  quaternC : JNum := some 0
  quaternD : JNum := some 0
  qOffsetX : JNum := some 0
  qOffsetY : JNum := some 0
  qOffsetZ : JNum := some 0
  pixDims : List JNum := [some 0, some 0, some 0, some 0, some 0, some 0, some 0, some 0]
  sRowX : List JNum := [some 0, some 0, some 0, some 0]
  sRowY : List JNum := [some 0, some 0, some 0, some 0]
  sRowZ : List JNum := [some 0, some 0, some 0, some 0]

/-- `NiftiHeader.computeAffine` with `Math.sqrt` supplied as `sq`.  Branch
order as in the source: scaling when both codes < 1; quaternion when
`qFormCode > 0 ∧ sFormCode < qFormCode`, with
`a = sq(1 − (b² + c² + d²))` (no zero floor in the source), `qfac` taken from
`pixDims[0]` (`0 ↦ 1`), columns scaled by `pixDims[1..3]` and the third also
by `qfac`, translation from the q-offsets; explicit sform rows when
`sFormCode > 0`; otherwise the identity start value.  Row 4 is never
written. -/
def computeAffineM (sq : JNum → JNum) (h : AffHeader) : List (List JNum) :=
  if h.qFormCode < 1 ∧ h.sFormCode < 1 then
    [[h.pixDims.getD 1 none, some 0, some 0, some 0],
     [some 0, h.pixDims.getD 2 none, some 0, some 0],
     [some 0, some 0, h.pixDims.getD 3 none, some 0],
     [some 0, some 0, some 0, some 1]]
  else if 0 < h.qFormCode ∧ h.sFormCode < h.qFormCode then
    let a := sq (jsub (some 1)
      (jadd (jadd (jpow2 h.quaternB) (jpow2 h.quaternC)) (jpow2 h.quaternD)))
    let b := h.quaternB
    let c := h.quaternC
    let d := h.quaternD
    let qfac : JNum := if h.pixDims.getD 0 none = some 0 then some 1 else h.pixDims.getD 0 none
    let quaternR : List (List JNum) :=
      [[jsub (jsub (jadd (jmul a a) (jmul b b)) (jmul c c)) (jmul d d),
        jsub (jmul (jmul (some 2) b) c) (jmul (jmul (some 2) a) d),
        jadd (jmul (jmul (some 2) b) d) (jmul (jmul (some 2) a) c)],
       [jadd (jmul (jmul (some 2) b) c) (jmul (jmul (some 2) a) d),
        jsub (jsub (jadd (jmul a a) (jmul c c)) (jmul b b)) (jmul d d),
        jsub (jmul (jmul (some 2) c) d) (jmul (jmul (some 2) a) b)],
       [jsub (jmul (jmul (some 2) b) d) (jmul (jmul (some 2) a) c),
        jadd (jmul (jmul (some 2) c) d) (jmul (jmul (some 2) a) b),
        jsub (jsub (jadd (jmul a a) (jmul d d)) (jmul c c)) (jmul b b)]]
    let entry (ctrOut ctrIn : ℕ) : JNum :=
      let v := jmul ((quaternR.getD ctrOut []).getD ctrIn none) (h.pixDims.getD (ctrIn + 1) none)
      if ctrIn = 2 then jmul v qfac else v
    [[entry 0 0, entry 0 1, entry 0 2, h.qOffsetX],
     [entry 1 0, entry 1 1, entry 1 2, h.qOffsetY],
     [entry 2 0, entry 2 1, entry 2 2, h.qOffsetZ],
     [some 0, some 0, some 0, some 1]]
  else if 0 < h.sFormCode then
    [[h.sRowX.getD 0 none, h.sRowX.getD 1 none, h.sRowX.getD 2 none, h.sRowX.getD 3 none],
     [h.sRowY.getD 0 none, h.sRowY.getD 1 none, h.sRowY.getD 2 none, h.sRowY.getD 3 none],
     [h.sRowZ.getD 0 none, h.sRowZ.getD 1 none, h.sRowZ.getD 2 none, h.sRowZ.getD 3 none],
     [some 0, some 0, some 0, some 1]]
  else
    [[some 1, some 0, some 0, some 0],
     [some 0, some 1, some 0, some 0],
     [some 0, some 0, some 1, some 0],
     [some 0, some 0, some 0, some 1]]

/-! # Claims

Each claim theorem below is annotated with its claim id. -/

/-! ## C10 — magic-location precedence in `detectNiftiVersion` -/

/-- C10: for every buffer of at least 348 bytes that carries a valid NIfTI-1
token (`ni1` = 110,105,49 or `n+1` = 110,43,49) at byte offset 344 and
simultaneously a valid NIfTI-2 token (`ni2` or `n+2`) at byte offset 4,
`detectNiftiVersion` returns a NIfTI-1 variant, never a NIfTI-2 variant: the
NIfTI-1 magic location is tested first. -/
theorem detect_prefers_nifti1_location (b : List ℕ) (hlen : 348 ≤ b.length)
    (h1 : [b.getD 344 0, b.getD 345 0, b.getD 346 0] = [110, 105, 49] ∨
          [b.getD 344 0, b.getD 345 0, b.getD 346 0] = [110, 43, 49])
    (h2 : [b.getD 4 0, b.getD 5 0, b.getD 6 0] = [110, 105, 50] ∨
          [b.getD 4 0, b.getD 5 0, b.getD 6 0] = [110, 43, 50]) :
    detectNiftiVersion b = .nifti1 ∨ detectNiftiVersion b = .nifti1Pair := by
  have hlt : ¬ b.length < 348 := by omega
  rcases h1 with h1 | h1
  · obtain ⟨e1, e2, e3⟩ : b.getD 344 0 = 110 ∧ b.getD 345 0 = 105 ∧ b.getD 346 0 = 49 := by
      simpa using h1
    simp only [List.getD_eq_getElem?_getD] at e1 e2 e3
    left
    simp [detectNiftiVersion, hlt, e1, e2, e3]
  · obtain ⟨e1, e2, e3⟩ : b.getD 344 0 = 110 ∧ b.getD 345 0 = 43 ∧ b.getD 346 0 = 49 := by
      simpa using h1
    simp only [List.getD_eq_getElem?_getD] at e1 e2 e3
    right
    simp [detectNiftiVersion, hlt, e1, e2, e3]

/-- A 348-byte buffer carrying the `ni2` token at offset 4 and the `ni1`
token at offset 344 simultaneously. -/
def bothMagicBuf : List ℕ :=
  List.replicate 4 0 ++ [110, 105, 50] ++ List.replicate 337 0 ++ [110, 105, 49, 0]

/-- C10 witness: the precedence theorem applied to a concrete buffer with
both magic tokens present. -/
theorem detect_prefers_nifti1_location_witness :
    348 ≤ bothMagicBuf.length ∧
      (detectNiftiVersion bothMagicBuf = .nifti1 ∨
        detectNiftiVersion bothMagicBuf = .nifti1Pair) :=
  ⟨by decide, detect_prefers_nifti1_location bothMagicBuf (by decide) (by decide) (by decide)⟩

/-! ## C9 — the decompression adapter on a short first chunk -/

/-- Input whose first chunk holds a single byte while a further chunk
follows. -/
def shortFirstChunkIn : List (List ℕ) := [[1], [2, 3]]

/-- C9 (evaluation at the failing input): with a 1-byte first chunk followed
by more data, `uncompressStream` returns the replay-only stream that emits
just the first chunk — the later chunk `[2,3]` is dropped and the output
concatenation differs from the input concatenation. -/
theorem uncompress_short_first_chunk_drops_rest :
    uncompressStreamM shortFirstChunkIn = .single [1] ∧
    uoutPlainBytes (uncompressStreamM shortFirstChunkIn) = some [1] ∧
    shortFirstChunkIn.flatten = [1, 2, 3] ∧ ([1] : List ℕ) ≠ [1, 2, 3] := by
  refine ⟨by decide, by decide, by decide, by decide⟩

/-! ## C2 — `parseNifti2` sform-row offsets -/

/-- A 540-byte NIfTI-2 header buffer with a nonzero byte at offset 280 (the
first byte the source's srow read actually touches) and zeros at offsets
400–495 (where the srow values are stored per the layout). -/
def srowProbeBuf : List ℕ :=
  [0, 0, 2, 28] ++ [110, 43, 50, 0, 0, 0, 0, 0] ++ List.replicate 268 0
    ++ [7] ++ List.replicate 259 0

/-- C2 (evaluation at the failing input): `parseNifti2` does not read the
sform rows at `400 + 8k`; the parsed `sRowX[0]` equals the float64 stored at
offset 280 (inside the descrip field, a NIfTI-1-layout offset), which differs
from the float64 stored at offset 400. -/
theorem parseNifti2_srow_from_wrong_offsets :
    (parseNifti2 srowProbeBuf false).toOption.map (fun h => h.sRowX.getD 0 0)
      = some (readF64 false srowProbeBuf 280) ∧
    readF64 false srowProbeBuf 280 ≠ readF64 false srowProbeBuf 400 := by
  refine ⟨by decide, by decide⟩

/-! ## C1 — serialize ∘ parse round-trip -/

/-- A well-formed 348-byte NIfTI-1 header buffer (big-endian `sizeof_hdr`
= 348, zero-padded strings, `ni1` magic, unused regions zero). -/
def wfNifti1Buf : List ℕ :=
  [0, 0, 1, 92] ++ List.replicate 340 0 ++ [110, 105, 49, 0]

/-- A well-formed 540-byte NIfTI-2 header buffer (big-endian `sizeof_hdr`
= 540, `n+2` magic, zero-padded strings) whose stored `srow_x[0]` at offset
400 is the float64 `1.0` (bit pattern `0x3FF0000000000000`). -/
def wfNifti2Buf : List ℕ :=
  [0, 0, 2, 28] ++ [110, 43, 50, 0, 0, 0, 0, 0] ++ List.replicate 388 0
    ++ [63, 240, 0, 0, 0, 0, 0, 0] ++ List.replicate 132 0

/-- C1 (evaluation): the NIfTI-1 round-trip reproduces a well-formed
348-byte buffer, but the NIfTI-2 round-trip fails on a well-formed 540-byte
buffer: `parseNifti2` reads the sform rows from the NIfTI-1 offsets
`280 + 4k` instead of `400 + 8k`, so `serializeNifti2` writes zeros over the
stored `srow` bytes at 400–495 and the result differs from the input. -/
theorem nifti1_roundtrip_ok_nifti2_roundtrip_broken :
    (parseNifti1 wfNifti1Buf false).toOption.map serializeNifti1 = some wfNifti1Buf ∧
    ((parseNifti2 wfNifti2Buf false).toOption.map serializeNifti2).isSome = true ∧
    (parseNifti2 wfNifti2Buf false).toOption.map serializeNifti2 ≠ some wfNifti2Buf := by
  refine ⟨by decide, by decide, by decide⟩

/-! ## C8 — extension construction -/

/-- C8 counterexample: the `NiftiExtension` constructor checks only
`esize % 16`, not the payload length — construction with `esize = 16` and a
4-byte payload succeeds although `4 ≠ esize − 8`. -/
theorem extension_ctor_accepts_wrong_payload_length :
    (mkNiftiExtension 16 0 [1, 2, 3, 4] true).toOption.map (fun e => e.edata.length)
      = some 4 ∧ (4 : ℤ) ≠ 16 - 8 := by
  refine ⟨by decide, by decide⟩

/-! ## C4 — the buffering engine contract -/

theorem chunksTotal_cons (v : List ℕ) (rest : List (List ℕ)) :
    chunksTotal (v :: rest) = v.length + chunksTotal rest := by
  simp [chunksTotal]

/-- Helper: a successful `readBytes` returns exactly the requested number of
bytes, regardless of the state of the cursor or the upstream chunking. -/
theorem readBytesGo_ok_length (chunks : List (List ℕ)) :
    ∀ (len : ℕ) (buf : List ℕ) (off : ℕ) (r buf2 : List ℕ) (off2 : ℕ)
      (rest : List (List ℕ)),
      readBytesGo len buf off chunks = .ok (r, buf2, off2, rest) → r.length = len := by
  induction chunks with
  | nil =>
    intro len buf off r buf2 off2 rest h
    unfold readBytesGo at h
    by_cases c1 : buf.length - off ≥ len
    · rw [if_pos c1] at h
      simp only [Except.ok.injEq, Prod.mk.injEq] at h
      obtain ⟨hr, -, -, -⟩ := h
      subst hr
      simp only [seg, List.length_take, List.length_drop]
      omega
    · rw [if_neg c1] at h
      by_cases c2 : buf.length - off > 0
      · rw [if_pos c2] at h
        have c3 : (buf.drop off).length < len := by
          rw [List.length_drop]; omega
        simp only [c3, if_true] at h
        exact absurd h (by simp)
      · rw [if_neg c2] at h
        exact absurd h (by simp)
  | cons v rest2 ih =>
    intro len buf off r buf2 off2 rest h
    unfold readBytesGo at h
    by_cases c1 : buf.length - off ≥ len
    · rw [if_pos c1] at h
      simp only [Except.ok.injEq, Prod.mk.injEq] at h
      obtain ⟨hr, -, -, -⟩ := h
      subst hr
      simp only [seg, List.length_take, List.length_drop]
      omega
    · rw [if_neg c1] at h
      by_cases c2 : buf.length - off > 0
      · rw [if_pos c2] at h
        exact ih len (buf.drop off ++ v) 0 r buf2 off2 rest h
      · rw [if_neg c2] at h
        exact ih len v 0 r buf2 off2 rest h

/-- Helper: full contract of `readBytes` — a success returns exactly `len`
bytes and consumes exactly those bytes from the head of the available input
(cursor invariant and byte conservation), and a failure is the stream-end
error naming the requested count and the total count actually available,
which is then smaller than the request. -/
theorem readBytesGo_spec_aux (chunks : List (List ℕ)) :
    ∀ (len : ℕ) (buf : List ℕ) (off : ℕ), off ≤ buf.length →
      (∀ (r buf2 : List ℕ) (off2 : ℕ) (rest : List (List ℕ)),
          readBytesGo len buf off chunks = .ok (r, buf2, off2, rest) →
          r.length = len ∧ off2 ≤ buf2.length ∧
          r ++ buf2.drop off2 ++ rest.flatten = buf.drop off ++ chunks.flatten) ∧
      (∀ e, readBytesGo len buf off chunks = .error e →
          e = .streamEnd len (buf.length - off + chunksTotal chunks) ∧
          buf.length - off + chunksTotal chunks < len) := by
  induction chunks with
  | nil =>
    intro len buf off hoff
    constructor
    · intro r buf2 off2 rest h
      unfold readBytesGo at h
      by_cases c1 : buf.length - off ≥ len
      · rw [if_pos c1] at h
        simp only [Except.ok.injEq, Prod.mk.injEq] at h
        obtain ⟨hr, hb, ho, hrest⟩ := h
        subst hr; subst hb; subst ho; subst hrest
        refine ⟨by simp only [seg, List.length_take, List.length_drop]; omega, by omega, ?_⟩
        have hdd : buf.drop (off + len) = (buf.drop off).drop len := by
          rw [List.drop_drop]
        simp only [seg, List.flatten_nil, List.append_nil, hdd]
        exact List.take_append_drop len (buf.drop off)
      · rw [if_neg c1] at h
        by_cases c2 : buf.length - off > 0
        · rw [if_pos c2] at h
          have c3 : (buf.drop off).length < len := by rw [List.length_drop]; omega
          simp only [c3, if_true] at h
          exact absurd h (by simp)
        · rw [if_neg c2] at h
          exact absurd h (by simp)
    · intro e h
      unfold readBytesGo at h
      by_cases c1 : buf.length - off ≥ len
      · rw [if_pos c1] at h
        exact absurd h (by simp)
      · rw [if_neg c1] at h
        by_cases c2 : buf.length - off > 0
        · rw [if_pos c2] at h
          have c3 : (buf.drop off).length < len := by rw [List.length_drop]; omega
          simp only [c3, if_true] at h
          simp only [Except.error.injEq] at h
          subst h
          constructor
          · simp [chunksTotal, List.length_drop]
          · simp [chunksTotal, List.length_drop]; omega
        · rw [if_neg c2] at h
          simp only [Except.error.injEq] at h
          subst h
          constructor
          · simp [chunksTotal]; omega
          · simp [chunksTotal]; omega
  | cons v rest2 ih =>
    intro len buf off hoff
    constructor
    · intro r buf2 off2 rest h
      unfold readBytesGo at h
      by_cases c1 : buf.length - off ≥ len
      · rw [if_pos c1] at h
        simp only [Except.ok.injEq, Prod.mk.injEq] at h
        obtain ⟨hr, hb, ho, hrest⟩ := h
        subst hr; subst hb; subst ho; subst hrest
        refine ⟨by simp only [seg, List.length_take, List.length_drop]; omega, by omega, ?_⟩
        have hdd : buf.drop (off + len) = (buf.drop off).drop len := by
          rw [List.drop_drop]
        simp only [seg, hdd, ← List.append_assoc]
        rw [List.take_append_drop len (buf.drop off)]
      · rw [if_neg c1] at h
        by_cases c2 : buf.length - off > 0
        · rw [if_pos c2] at h
          obtain ⟨hlen, hinv, hcons⟩ :=
            ((ih len (buf.drop off ++ v) 0 (Nat.zero_le _)).1 r buf2 off2 rest h)
          refine ⟨hlen, hinv, ?_⟩
          rw [hcons]
          simp [List.append_assoc]
        · rw [if_neg c2] at h
          obtain ⟨hlen, hinv, hcons⟩ :=
            ((ih len v 0 (Nat.zero_le _)).1 r buf2 off2 rest h)
          refine ⟨hlen, hinv, ?_⟩
          rw [hcons]
          have hnil : buf.drop off = [] := List.drop_eq_nil_of_le (by omega)
          simp [hnil]
    · intro e h
      unfold readBytesGo at h
      by_cases c1 : buf.length - off ≥ len
      · rw [if_pos c1] at h
        exact absurd h (by simp)
      · rw [if_neg c1] at h
        by_cases c2 : buf.length - off > 0
        · rw [if_pos c2] at h
          obtain ⟨he, hlt⟩ := (ih len (buf.drop off ++ v) 0 (Nat.zero_le _)).2 e h
          have harith : (buf.drop off ++ v).length - 0 + chunksTotal rest2
              = buf.length - off + chunksTotal (v :: rest2) := by
            simp [chunksTotal_cons, List.length_append, List.length_drop]; omega
          rw [harith] at he hlt
          exact ⟨he, hlt⟩
        · rw [if_neg c2] at h
          obtain ⟨he, hlt⟩ := (ih len v 0 (Nat.zero_le _)).2 e h
          have harith : v.length - 0 + chunksTotal rest2
              = buf.length - off + chunksTotal (v :: rest2) := by
            simp [chunksTotal_cons]; omega
          rw [harith] at he hlt
          exact ⟨he, hlt⟩

/-- C4: for every requested length `len`, `readBytes` either returns a byte
array of length exactly `len` — never more, never fewer — consuming exactly
those bytes from the head of the available input (the returned bytes followed
by the still-unread bytes reconstitute the original pending bytes and
upstream chunks), or fails with the stream-end error reporting the requested
byte count and the byte count actually available, the latter being smaller
than the request; this holds regardless of how the upstream chunks are sized
or where the upstream stream ends. -/
theorem readBytes_exact_or_reports_counts (len : ℕ) (buf : List ℕ) (off : ℕ)
    (chunks : List (List ℕ)) (hoff : off ≤ buf.length) :
    (∀ (r buf2 : List ℕ) (off2 : ℕ) (rest : List (List ℕ)),
        readBytesGo len buf off chunks = .ok (r, buf2, off2, rest) →
        r.length = len ∧
        r ++ buf2.drop off2 ++ rest.flatten = buf.drop off ++ chunks.flatten) ∧
    (∀ e, readBytesGo len buf off chunks = .error e →
        e = .streamEnd len (buf.length - off + chunksTotal chunks) ∧
        buf.length - off + chunksTotal chunks < len) := by
  obtain ⟨hok, herr⟩ := readBytesGo_spec_aux chunks len buf off hoff
  exact ⟨fun r buf2 off2 rest h => ⟨(hok r buf2 off2 rest h).1, (hok r buf2 off2 rest h).2.2⟩,
    herr⟩

/-- C4 witness: the contract applied to a concrete read of 4 bytes that
spans the buffered remainder `[2,3]` and an upstream chunk `[9,9]`. -/
theorem readBytes_exact_or_reports_counts_witness :
    1 ≤ ([1, 2, 3] : List ℕ).length ∧
    (([2, 3, 9, 9] : List ℕ).length = 4 ∧
      [2, 3, 9, 9] ++ ([2, 3, 9, 9] : List ℕ).drop 4 ++ ([] : List (List ℕ)).flatten
        = ([1, 2, 3] : List ℕ).drop 1 ++ [[9, 9]].flatten) :=
  ⟨by decide,
    (readBytes_exact_or_reports_counts 4 [1, 2, 3] 1 [[9, 9]] (by decide)).1
      [2, 3, 9, 9] [2, 3, 9, 9] 4 [] (by decide)⟩

/-! ## C6 — end of stream during a slice read -/

/-- A header whose slice size for dimension 2 is 4 bytes (`bitpix` 32,
`dims` `[3,1,1,1,1,1,1,1]`). -/
def truncHdr : NiftiHeaderM :=
  { dims := [3, 1, 1, 1, 1, 1, 1, 1], numBitsPerVoxel := 32 }

/-- Options streaming 2-D slices. -/
def truncOpts : SOptions := { sliceDimension := some 2 }

/-- Session state in the streaming phase with 2 pending bytes (fewer than
one slice) and an exhausted upstream. -/
def truncSt : SState :=
  { buffer := [9, 9], bufferOffset := 0, chunks := [], dataPosition := 0,
    header := some truncHdr }

/-- C6 counterexample: a slice read on a stream that ends with 2 bytes
pending (a slice truncated partway through) raises the unexpected-end error
with a nonzero available count, and `readNextSlice` nevertheless treats it as
a clean end of the session (`null`), contradicting the claim that only a
zero-pending end is clean. -/
theorem truncated_slice_treated_as_clean_end :
    readBytesGo (sliceSizeM truncHdr 2) truncSt.buffer truncSt.bufferOffset truncSt.chunks
      = .error (.streamEnd 4 2) ∧
    readNextSliceM truncOpts truncSt = .ok none ∧ (2 : ℕ) ≠ 0 := by
  refine ⟨by decide, by decide, by decide⟩

/-- C6 (amended): end-of-stream while requesting a slice ends the session
cleanly whether or not bytes are pending — every `NiftiIOError` raised by the
slice read, including the unexpected-end error with a nonzero pending count,
is caught and reported as a clean end (`readNextSlice` returns `null`). -/
theorem slice_ioError_ends_cleanly (opts : SOptions) (d : ℕ) (st : SState)
    (h : NiftiHeaderM) (e : NError) (hd : opts.sliceDimension = some d)
    (hh : st.header = some h)
    (herr : readBytesGo (sliceSizeM h d) st.buffer st.bufferOffset st.chunks = .error e)
    (hio : e.isIOError = true) :
    readNextSliceM opts st = .ok none := by
  simp [readNextSliceM, hh, hd, herr, hio]

/-- C6 witness: the amended rule applied to the concrete truncated state. -/
theorem slice_ioError_ends_cleanly_witness :
    readNextSliceM truncOpts truncSt = .ok none :=
  slice_ioError_ends_cleanly truncOpts 2 truncSt truncHdr (.streamEnd 4 2)
    rfl rfl (by decide) (by decide)

/-! ## C3 — the affine derivation and the missing zero floor -/

theorem jmul_none_left (x : JNum) : jmul none x = none := rfl

theorem jmul_none_right (x : JNum) : jmul x none = none := by cases x <;> rfl

theorem jadd_none_left (x : JNum) : jadd none x = none := rfl

theorem jsub_none_left (x : JNum) : jsub none x = none := rfl

/-- A header selecting the quaternion method (`qFormCode = 1 > sFormCode =
0`) whose stored quaternion has `b² + c² + d² = 2 > 1`. -/
def qOverflowHdr : AffHeader :=
  { qFormCode := 1, sFormCode := 0,
    quaternB := some 1, quaternC := some 1, quaternD := some 0,
    pixDims := [some 1, some 1, some 1, some 1, some 0, some 0, some 0, some 0] }

/-- C3 (evaluation at the failing input): the source computes
`a = Math.sqrt(1 − (b² + c² + d²))` with no zero floor, so for the quaternion
`(1,1,0)` the argument is `−1`, `a` is NaN (hypothesis: JS `Math.sqrt`
returns NaN on `−1`), and the NaN propagates into the affine entries — entry
(0,0) is NaN rather than the well-defined real number the claim's
`a = sqrt(max(0, 1 − b² − c² − d²))` would produce. -/
theorem computeAffine_no_sqrt_floor_nan (sq : JNum → JNum)
    (hsq : sq (some (-1)) = none) :
    ((computeAffineM sq qOverflowHdr).getD 0 []).getD 0 (some 0) = none := by
  have harg : (jsub (some 1)
      (jadd (jadd (jpow2 (some 1)) (jpow2 (some 1))) (jpow2 (some 0))) : JNum)
      = some (-1) := by
    simp [jsub, jadd, jmul, jpow2]
  simp only [computeAffineM, qOverflowHdr]
  norm_num [harg, hsq, jmul_none_left, jmul_none_right, jadd_none_left, jsub_none_left]

/-- C3 witness: the evaluation instantiated with a concrete square root
returning NaN on negatives. -/
theorem computeAffine_no_sqrt_floor_nan_witness :
    (fun x : JNum => match x with
      | some q => if q < 0 then none else some q
      | none => none) (some (-1)) = none ∧
    ((computeAffineM (fun x : JNum => match x with
      | some q => if q < 0 then none else some q
      | none => none) qOverflowHdr).getD 0 []).getD 0 (some 0) = none :=
  ⟨by norm_num,
    computeAffine_no_sqrt_floor_nan _ (by norm_num)⟩

/-- C8 (amended): construction of a `NiftiExtension` fails exactly when
`esize` is not a multiple of 16 (the constructor performs no payload-length
validation); and every extension the stream's extension-reading phase
produces has payload length `(esize − 8).toNat` — hence, whenever the parsed
`esize` is at least 8, `data.length = esize − 8`. -/
theorem extension_size_rule_and_reader_payload :
    (∀ (esize ecode : ℤ) (edata : List ℕ) (le : Bool),
        (mkNiftiExtension esize ecode edata le).isOk = true ↔ esize.tmod 16 = 0) ∧
    (∀ (st : SState) (ext : NiftiExtensionM) (st2 : SState),
        readExtensionM st = .ok (some ext, st2) →
        ext.edata.length = (ext.esize - 8).toNat ∧
        (8 ≤ ext.esize → (ext.edata.length : ℤ) = ext.esize - 8)) := by
  constructor
  · intro esize ecode edata le
    unfold mkNiftiExtension
    by_cases hm : esize.tmod 16 = 0
    · simp [Except.isOk, Except.toBool, hm]
    · simp [Except.isOk, Except.toBool, hm]
  · intro st ext st2 h
    unfold readExtensionM at h
    cases hh : st.header with
    | none => rw [hh] at h; exact absurd h (by simp)
    | some h0 =>
      rw [hh] at h
      cases hr1 : readBytesGo 4 st.buffer st.bufferOffset st.chunks with
      | error e => rw [hr1] at h; simp [bind, Except.bind] at h
      | ok t1 =>
        obtain ⟨flag, b1, o1, c1⟩ := t1
        rw [hr1] at h
        simp only [bind, Except.bind] at h
        by_cases hflag : flag.getD 0 0 = 0
        · rw [if_pos hflag] at h
          simp at h
        · rw [if_neg hflag] at h
          cases hr2 : readBytesGo 8 b1 o1 c1 with
          | error e => rw [hr2] at h; simp [bind, Except.bind] at h
          | ok t2 =>
            obtain ⟨eh, b2, o2, c2⟩ := t2
            rw [hr2] at h
            simp only [bind, Except.bind] at h
            cases hr3 : readBytesGo ((readI32 h0.littleEndian eh 0) - 8).toNat b2 o2 c2 with
            | error e => rw [hr3] at h; simp [bind, Except.bind] at h
            | ok t3 =>
              obtain ⟨edata, b3, o3, c3⟩ := t3
              rw [hr3] at h
              simp only [bind, Except.bind] at h
              unfold mkNiftiExtension at h
              by_cases hm : (readI32 h0.littleEndian eh 0).tmod 16 = 0
              · rw [if_neg (by simpa using hm)] at h
                simp only [bind, Except.bind, Except.ok.injEq, Prod.mk.injEq,
                  Option.some.injEq] at h
                obtain ⟨hext, -⟩ := h
                subst hext
                have hlen := readBytesGo_ok_length c2 _ b2 o2 edata b3 o3 c3 hr3
                refine ⟨by simpa using hlen, ?_⟩
                intro h8
                dsimp only at h8 ⊢
                omega
              · rw [if_pos (by simpa using hm)] at h
                simp [bind, Except.bind] at h

/-! ## C5 — slice sizes and position indices -/

theorem jsSetExtend_length (l : List (Option ℤ)) (i : ℕ) (v : ℤ) :
    (jsSetExtend l i v).length = max l.length (i + 1) := by
  unfold jsSetExtend
  split_ifs with hi
  · simp; omega
  · simp; omega

theorem jsSetExtend_getElem_self (l : List (Option ℤ)) (i : ℕ) (v : ℤ) :
    (jsSetExtend l i v)[i]? = some (some v) := by
  unfold jsSetExtend
  split_ifs with hi
  · exact List.getElem?_set_self hi
  · have hlen : (l ++ List.replicate (i - l.length) (none : Option ℤ)).length = i := by
      simp; omega
    rw [List.getElem?_append_right hlen.le, hlen]
    simp

theorem jsSetExtend_getElem_other (l : List (Option ℤ)) (i : ℕ) (v : ℤ) (j : ℕ)
    (hj : j < l.length) (hne : j ≠ i) :
    (jsSetExtend l i v)[j]? = l[j]? := by
  unfold jsSetExtend
  split_ifs with hi
  · exact List.getElem?_set_ne (Ne.symm hne)
  · rw [List.getElem?_append_left (by simp; omega), List.getElem?_append_left hj]

/-- Helper: one successful sliced read returns `sliceSize` bytes, produces
the position array `new Array(dims[0]).fill(0)` with slot `d+1` set to the
current counter, preserves the header and increments the counter. -/
theorem readNextSlice_step (opts : SOptions) (d : ℕ) (st : SState) (h : NiftiHeaderM)
    (r : SliceResultM) (st2 : SState) (hd : opts.sliceDimension = some d)
    (hh : st.header = some h)
    (hr : readNextSliceM opts st = .ok (some (r, st2))) :
    r.data.length = sliceSizeM h d ∧
    r.indices = jsSetExtend (List.replicate (h.dims.getD 0 0).toNat (some 0)) (d + 1)
      (st.dataPosition : ℤ) ∧
    st2.header = some h ∧ st2.dataPosition = st.dataPosition + 1 := by
  unfold readNextSliceM at hr
  simp only [hh, hd] at hr
  cases hb : readBytesGo (sliceSizeM h d) st.buffer st.bufferOffset st.chunks with
  | error e =>
    rw [hb] at hr
    by_cases hio : e.isIOError <;> simp [hio] at hr
  | ok t =>
    obtain ⟨sliceData, b1, o1, c1⟩ := t
    rw [hb] at hr
    simp only [Except.ok.injEq, Option.some.injEq, Prod.mk.injEq] at hr
    obtain ⟨hr1, hr2⟩ := hr
    subst hr1; subst hr2
    refine ⟨readBytesGo_ok_length st.chunks _ st.buffer st.bufferOffset sliceData b1 o1 c1 hb,
      rfl, by simp [hh], rfl⟩

/-- Helper: the `k`-th slice emitted from a state carries the counter
`dataPosition + k` in slot `d+1` of its position array. -/
theorem runSlices_get_spec (opts : SOptions) (d : ℕ) (h : NiftiHeaderM)
    (hd : opts.sliceDimension = some d) :
    ∀ (fuel k : ℕ) (st : SState), st.header = some h →
      ∀ r, (runSlices opts fuel st)[k]? = some r →
        r.data.length = sliceSizeM h d ∧
        r.indices = jsSetExtend (List.replicate (h.dims.getD 0 0).toNat (some 0)) (d + 1)
          ((st.dataPosition + k : ℕ) : ℤ) := by
  intro fuel
  induction fuel with
  | zero =>
    intro k st hh r hr
    simp [runSlices] at hr
  | succ n ih =>
    intro k st hh r hr
    unfold runSlices at hr
    cases hs : readNextSliceM opts st with
    | error e => rw [hs] at hr; simp at hr
    | ok o =>
      cases o with
      | none => rw [hs] at hr; simp at hr
      | some p =>
        obtain ⟨r1, st1⟩ := p
        rw [hs] at hr
        simp only [List.getElem?_cons] at hr
        obtain ⟨hlen, hidx, hh1, hpos⟩ := readNextSlice_step opts d st h r1 st1 hd hh hs
        cases k with
        | zero =>
          simp only [if_pos rfl] at hr
          obtain rfl : r1 = r := by simpa using hr
          exact ⟨hlen, by rw [hidx]; norm_num⟩
        | succ k2 =>
          rw [if_neg (by omega)] at hr
          have hr2 : (runSlices opts n st1)[k2]? = some r := by
            simpa using hr
          obtain ⟨hlen2, hidx2⟩ := ih k2 st1 hh1 r hr2
          refine ⟨hlen2, ?_⟩
          rw [hidx2, hpos]
          congr 2
          omega

/-- C5 counterexample: on a header with `dims[0] = 3` and slice dimension 2
(the claim's own example shape), the emitted position array has length 4, not
`dims[0] = 3` — the assignment `indices[sliceDimension + 1]` extends the
`Array(dims[0])` array. -/
theorem slice_indices_length_exceeds_ndim :
    (readNextSliceM { sliceDimension := some 2 }
        { buffer := List.replicate 16 1, bufferOffset := 0, chunks := [],
          dataPosition := 0,
          header := some { dims := [3, 2, 2, 21, 1, 1, 1, 1], numBitsPerVoxel := 32 } }).toOption.map
      (Option.map fun p => p.1.indices)
      = some (some [some 0, some 0, some 0, some 0]) ∧
    (([3, 2, 2, 21, 1, 1, 1, 1] : List ℤ).getD 0 0 = 3) ∧
    ([some 0, some 0, some 0, some (0 : ℤ)] : List (Option ℤ)).length ≠ 3 := by
  refine ⟨by decide, by decide, by decide⟩

/-- C5 (amended): with a configured slice dimension `d ∈ {2,3,4}` and a
header with `dims[0] ≥ 0`, every emitted slice has byte length
`sliceSize = bytesPerVoxel × ∏ dims[1..d]` (non-positive sizes skipped), and
its position array has length `max(dims[0], d+2)` — `dims[0]` when
`d+1 < dims[0]`, else `d+2` because the assignment extends the array — with
the slot at `d+1` holding the running counter 0, 1, 2, … in emission order
and every other slot inside the initial `dims[0]`-long zero fill still
zero. -/
theorem slice_emission_spec (opts : SOptions) (d : ℕ) (h : NiftiHeaderM) (st0 : SState)
    (hd : opts.sliceDimension = some d) (hh : st0.header = some h)
    (hp : st0.dataPosition = 0) (_hnd : 0 ≤ h.dims.getD 0 0) :
    ∀ (fuel k : ℕ) (r : SliceResultM), (runSlices opts fuel st0)[k]? = some r →
      r.data.length = sliceSizeM h d ∧
      r.indices.length = max (h.dims.getD 0 0).toNat (d + 2) ∧
      r.indices[d + 1]? = some (some (k : ℤ)) ∧
      (∀ j, j < (h.dims.getD 0 0).toNat → j ≠ d + 1 → r.indices[j]? = some (some 0)) := by
  intro fuel k r hr
  obtain ⟨hlen, hidx⟩ := runSlices_get_spec opts d h hd fuel k st0 hh r hr
  rw [hp] at hidx
  refine ⟨hlen, ?_, ?_, ?_⟩
  · rw [hidx, jsSetExtend_length]
    simp
  · rw [hidx, jsSetExtend_getElem_self]
    norm_num
  · intro j hj hne
    rw [hidx, jsSetExtend_getElem_other _ _ _ j (by simpa using hj) hne,
      List.getElem?_replicate, if_pos hj]

/-- Header of the claim's example family: `dims = [3,2,2,21,1,1,1,1]`, 32
bits per voxel; its slice size for dimension 2 is `4 × 2 × 2 = 16` bytes. -/
def emitHdr : NiftiHeaderM :=
  { dims := [3, 2, 2, 21, 1, 1, 1, 1], numBitsPerVoxel := 32 }

/-- Fresh streaming state over 32 buffered bytes for `emitHdr`. -/
def emitSt : SState :=
  { buffer := List.replicate 32 5, bufferOffset := 0, chunks := [],
    dataPosition := 0, header := some emitHdr }

/-- C5 witness: the amended statement applied to a concrete 2-slice run
(slice dimension 2 over `emitSt`), read off at the second emitted slice
(`k = 1`). -/
theorem slice_emission_spec_witness :
    (List.replicate 16 (5 : ℕ)).length = sliceSizeM emitHdr 2 ∧
    ([some 0, some 0, some 0, some (1 : ℤ)] : List (Option ℤ)).length
        = max ((emitHdr.dims.getD 0 0).toNat) (2 + 2) ∧
    ([some 0, some 0, some 0, some (1 : ℤ)] : List (Option ℤ))[2 + 1]?
        = some (some ((1 : ℕ) : ℤ)) ∧
    (∀ j, j < (emitHdr.dims.getD 0 0).toNat → j ≠ 2 + 1 →
        ([some 0, some 0, some 0, some (1 : ℤ)] : List (Option ℤ))[j]? = some (some 0)) :=
  slice_emission_spec { sliceDimension := some 2 } 2 emitHdr emitSt
    rfl rfl rfl (by decide) 3 1
    ⟨List.replicate 16 5, [some 0, some 0, some 0, some 1]⟩ (by decide)

/-! ## C7 — errors funneled to the session's error handler -/

/-- A stream that ends after delivering only 100 bytes — less than one
NIfTI-1 header. -/
def hundredByteChunks : List (List ℕ) := [List.replicate 100 0]

/-- Options with only an error handler configured. -/
def onlyErrOpts : SOptions := { hasOnError := true }

/-- Options with no handlers at all. -/
def noHandlerOpts : SOptions := {}

/-- C7: `start` never throws — every error the session body raises is caught
at the session boundary; on the concrete 100-byte stream the stream-end error
(`needed 348, got 100`) is the value delivered to the configured error
handler, and with no error handler configured the same error is silently
swallowed while `start` still resolves normally. -/
theorem start_never_throws_and_funnels_errors :
    (∀ (gunzip : List (List ℕ) → List (List ℕ)) (opts : SOptions)
        (chunks : List (List ℕ)) (fuel : ℕ),
        (startM gunzip opts chunks fuel).isOk = true) ∧
    startM id onlyErrOpts hundredByteChunks 4 = .ok (some (.streamEnd 348 100)) ∧
    startM id noHandlerOpts hundredByteChunks 4 = .ok none := by
  refine ⟨?_, by decide, by decide⟩
  intro gunzip opts chunks fuel
  cases hs : sessionBody opts fuel { chunks := uoutDeliver gunzip (uncompressStreamM chunks) } <;>
    simp [startM, hs, Except.isOk, Except.toBool]

/-- A little-endian header for the extension-reader witness. -/
def extWitHdr : NiftiHeaderM := { littleEndian := true }

/-- State holding one extension on the wire: presence flag `1`, `esize = 16`,
`ecode = 0`, 8 payload bytes. -/
def extWitSt : SState :=
  { buffer := [1, 0, 0, 0] ++ [16, 0, 0, 0] ++ [0, 0, 0, 0] ++ List.replicate 8 7,
    bufferOffset := 0, chunks := [], dataPosition := 0, header := some extWitHdr }

/-- The extension the reader produces from `extWitSt`. -/
def extWitExt : NiftiExtensionM :=
  { esize := 16, ecode := 0, edata := List.replicate 8 7, littleEndian := true }

/-- The state after reading that extension (cursor advanced over 20 bytes). -/
def extWitSt2 : SState :=
  { buffer := [1, 0, 0, 0] ++ [16, 0, 0, 0] ++ [0, 0, 0, 0] ++ List.replicate 8 7,
    bufferOffset := 20, chunks := [], dataPosition := 0, header := some extWitHdr }

/-- C8 witness: the reader-payload rule applied to the concrete extension
read from `extWitSt`. -/
theorem extension_size_rule_and_reader_payload_witness :
    extWitExt.edata.length = (extWitExt.esize - 8).toNat ∧
    (8 ≤ extWitExt.esize → (extWitExt.edata.length : ℤ) = extWitExt.esize - 8) :=
  extension_size_rule_and_reader_payload.2 extWitSt extWitExt extWitSt2 (by decide)
